import Mathlib

/-!
Verification of the gitoxide read-path components against their source:

* `git-traverse/src/commit.rs` — commit ancestry traversal (`Ancestors`),
  with its two sorting disciplines (`graph_sort_next`, `next_by_commit_date`),
  parent modes and predicate filtering.
* `git-odb/src/store/linked/find.rs` — the multi-backend (linked) object
  store: `contains`, `try_find_cached`, `try_find`, `location_by_oid`.
* `git-odb/src/pack/index.rs` — the pack index codec: `File::at`, `read_fan`,
  and the V2 offset resolution of `iter_v2`.

The embedding is shallow: Rust closures (`Find`, `Predicate`) become pure
Lean functions, `VecDeque`/`BTreeSet` become lists with set-like insertion
(only membership and FIFO order are observable in the source), machine
integers become `Nat`/`Int`, and fallible operations return
`Option`/`Except`.  Operations that can panic in Rust (slice indexing,
`split_at`, `byteorder` reads) are modelled as `Option`-returning checked
operations, `none` standing for a panic.
-/

deriving instance DecidableEq for Except

namespace Gitoxide

/-! ## git-traverse/src/commit.rs : data model -/

/-- A 20-byte object id, abstracted to a natural number (only equality and
ordering of ids are observable to the traversal). -/
abbrev ObjectId := Nat

/-- Decode errors from `git_object::decode::Error`, abstracted to a code. -/
abbrev DecodeErr := Nat

/-- The tokens yielded by `git_object::CommitRefIter`: a tree reference,
parent references, and further tokens (author, committer, ...) that the
traversal never inspects beyond "not a parent". -/
inductive Token where
  | tree : Token
  | parent (id : ObjectId) : Token
  | other : Token
deriving DecidableEq, Repr

/-- What the injected `find` callback produces for one object: the token
stream of the `CommitRefIter` and the committer time that
`CommitRefIter::committer()` would extract (`none` when the object cannot
furnish one).  The seconds of `git_actor::Time` are modelled as `Int`. -/
structure CommitData where
  tokens : List (Except DecodeErr Token)
  committer : Option Int
deriving DecidableEq, Repr

/-- `Parents`: how commit parents are handled during traversal. -/
inductive Parents where
  | all : Parents
  | first : Parents
deriving DecidableEq, Repr

/-- `Sorting`: the traversal discipline. -/
inductive Sorting where
  | graphOrder : Sorting
  | byCommitterDate : Sorting
deriving DecidableEq, Repr

/-- `ancestors::State`: pending queue (`VecDeque`), scratch buffer and seen
set (`BTreeSet`, modelled as a duplicate-free list; only membership is
observable). -/
structure State where
  next : List ObjectId
  buf : List Nat
  seen : List ObjectId
deriving DecidableEq, Repr

/-- `State::clear` — empties all three fields. -/
def State.clear (_s : State) : State :=
  { next := [], buf := [], seen := [] }

/-- The configuration of one `Ancestors` iterator: the injected `find`
callback and predicate (pure functions here), parent mode and sorting. -/
structure Cfg where
  find : ObjectId → Option CommitData
  predicate : ObjectId → Bool
  mode : Parents
  sorting : Sorting

/-- Errors yielded in-band by the traversal (`ancestors::Error`). -/
inductive TravError where
  | notFound (oid : ObjectId) : TravError
  | objectDecode (err : DecodeErr) : TravError
deriving DecidableEq, Repr

/-- One item of the traversal's output sequence. -/
abbrev Item := Except TravError ObjectId

/-- `BTreeSet::insert`: returns whether the id was newly inserted, plus the
updated set. -/
def seenInsert (id : ObjectId) (seen : List ObjectId) : Bool × List ObjectId :=
  if id ∈ seen then (false, seen) else (true, seen ++ [id])

/-! ## Construction (`Ancestors::filtered`, reached by `Ancestors::new`
with an always-true predicate)

`enqueueTips` mirrors the tip loop of `filtered`; its last argument is a
ghost log of the tips on which the predicate was consulted (the source
consults `predicate` only when `was_inserted` holds, by `&&`
short-circuiting). -/

def enqueueTips (pred : ObjectId → Bool) :
    List ObjectId → List ObjectId → List ObjectId → List ObjectId →
    List ObjectId × List ObjectId × List ObjectId
  | [], next, seen, consulted => (next, seen, consulted)
  | tip :: rest, next, seen, consulted =>
    let ins := seenInsert tip seen
    let consulted' := if ins.1 then consulted ++ [tip] else consulted
    let next' := if ins.1 && pred tip then next ++ [tip] else next
    enqueueTips pred rest next' ins.2 consulted'

/-- `Ancestors::filtered`: clears the supplied state, then marks each tip
seen and enqueues it when newly inserted and accepted by the predicate.
Returns the initial state together with the ghost list of tips on which
the predicate was consulted. -/
def Ancestors.filtered (pred : ObjectId → Bool) (tips : List ObjectId)
    (state : State) : State × List ObjectId :=
  let cleared := state.clear
  let r := enqueueTips pred tips cleared.next cleared.seen []
  ({ next := r.1, buf := cleared.buf, seen := r.2.1 }, r.2.2)

/-! ## `graph_sort_next` -/

/-- The parent-token loop of `graph_sort_next`, run on the tokens that
remain after the first token was consumed.  Threads the pending queue and
seen set; returns `some err` when a token fails to decode (the source then
returns `Err` with the state mutated so far). -/
def graphLoop (pred : ObjectId → Bool) (mode : Parents) :
    List (Except DecodeErr Token) → List ObjectId → List ObjectId →
    Option DecodeErr × List ObjectId × List ObjectId
  | [], next, seen => (none, next, seen)
  | .error e :: _, next, seen => (some e, next, seen)
  | .ok (.parent id) :: rest, next, seen =>
    let ins := seenInsert id seen
    let next' := if ins.1 && pred id then next ++ [id] else next
    match mode with
    | .first => (none, next', ins.2)
    | .all => graphLoop pred mode rest next' ins.2
  | .ok _ :: _, next, seen => (none, next, seen)

/-- `Ancestors::graph_sort_next`. -/
def graphSortNext (c : Cfg) (s : State) : Option Item × State :=
  match s.next with
  | [] => (none, s)
  | oid :: rest =>
    match c.find oid with
    | none => (some (.error (.notFound oid)), { s with next := rest })
    | some commit =>
      match commit.tokens with
      | .error e :: _ => (some (.error (.objectDecode e)), { s with next := rest })
      | tokens =>
        let r := graphLoop c.predicate c.mode tokens.tail rest s.seen
        match r.1 with
        | some e =>
          (some (.error (.objectDecode e)), { s with next := r.2.1, seen := r.2.2 })
        | none => (some (.ok oid), { s with next := r.2.1, seen := r.2.2 })

/-! ## `next_by_commit_date` -/

/-- The second lookup performed per parent in `next_by_commit_date`:
`find(parent).map(|p| p.committer().map(|c| c.time)).flatten()`. -/
def dateOf (c : Cfg) (id : ObjectId) : Option Int :=
  (c.find id).bind fun p => p.committer

/-- The parent-token loop of `next_by_commit_date`: collects the
`(parent, committer-date)` batch, silently skipping parents without a
date; a decode error aborts the whole step (the source `return`s before
anything is enqueued). -/
def dateLoop (c : Cfg) :
    List (Except DecodeErr Token) → List (ObjectId × Int) →
    Except DecodeErr (List (ObjectId × Int))
  | [], batch => .ok batch
  | .error e :: _, _ => .error e
  | .ok (.parent id) :: rest, batch =>
    let batch' :=
      match dateOf c id with
      | some t => batch ++ [(id, t)]
      | none => batch
    match c.mode with
    | .first => .ok batch'
    | .all => dateLoop c rest batch'
  | .ok _ :: _, batch => .ok batch

/-- Stable insertion for descending-by-date order: a later element is
placed after every strictly-later-dated one and before equal-dated ones,
matching the stable `sort_by(|(_, t), (_, u)| u.cmp(t))` of the source. -/
def insertByDateDesc (p : ObjectId × Int) :
    List (ObjectId × Int) → List (ObjectId × Int)
  | [] => [p]
  | q :: qs => if p.2 < q.2 then q :: insertByDateDesc p qs else p :: q :: qs

/-- Stable descending-by-date sort of the parent batch. -/
def sortByDateDesc : List (ObjectId × Int) → List (ObjectId × Int)
  | [] => []
  | p :: ps => insertByDateDesc p (sortByDateDesc ps)

/-- The enqueue loop run over the sorted batch: mark seen, enqueue when
newly inserted and accepted by the predicate. -/
def enqueueParents (pred : ObjectId → Bool) :
    List ObjectId → List ObjectId → List ObjectId →
    List ObjectId × List ObjectId
  | [], next, seen => (next, seen)
  | id :: rest, next, seen =>
    let ins := seenInsert id seen
    let next' := if ins.1 && pred id then next ++ [id] else next
    enqueueParents pred rest next' ins.2

/-- `Ancestors::next_by_commit_date`. -/
def nextByCommitDate (c : Cfg) (s : State) : Option Item × State :=
  match s.next with
  | [] => (none, s)
  | oid :: rest =>
    match c.find oid with
    | none => (some (.error (.notFound oid)), { s with next := rest })
    | some commit =>
      match commit.tokens with
      | .error e :: _ => (some (.error (.objectDecode e)), { s with next := rest })
      | tokens =>
        match dateLoop c tokens.tail [] with
        | .error e => (some (.error (.objectDecode e)), { s with next := rest })
        | .ok batch =>
          let sorted := sortByDateDesc batch
          let r := enqueueParents c.predicate (sorted.map Prod.fst) rest s.seen
          (some (.ok oid), { s with next := r.1, seen := r.2 })

/-- `Iterator::next` for `Ancestors`: dispatch on the sorting mode. -/
def step (c : Cfg) (s : State) : Option Item × State :=
  match c.sorting with
  | .graphOrder => graphSortNext c s
  | .byCommitterDate => nextByCommitDate c s

/-- Drive the iterator for at most `fuel` steps, collecting the yielded
items (the source iterator ends when `next` returns `None`). -/
def run (c : Cfg) : Nat → State → List Item
  | 0, _ => []
  | fuel + 1, s =>
    match step c s with
    | (none, _) => []
    | (some it, s') => it :: run c fuel s'

/-- The state after `fuel` calls to `next`. -/
def runState (c : Cfg) : Nat → State → State
  | 0, s => s
  | fuel + 1, s => runState c fuel (step c s).2

/-- The object ids an item mentions: the yielded id, or the id named by a
`NotFound` error. -/
def itemIds : Item → List ObjectId
  | .ok id => [id]
  | .error (.notFound id) => [id]
  | .error (.objectDecode _) => []

/-- All ids mentioned by a traversal output sequence. -/
def yieldedIds (items : List Item) : List ObjectId :=
  items.flatMap itemIds

/-- Order-preserving first-occurrence deduplication, relative to an
already-seen accumulator. -/
def dedupAux : List ObjectId → List ObjectId → List ObjectId
  | [], _ => []
  | x :: xs, seen =>
    if x ∈ seen then dedupAux xs seen else x :: dedupAux xs (seen ++ [x])

/-- Order-preserving first-occurrence deduplication. -/
def dedupKeepFirst (l : List ObjectId) : List ObjectId :=
  dedupAux l []

/-- The queue invariant every traversal maintains: the pending queue is
duplicate-free, every pending id is already marked seen, and every
pending id passed the predicate. -/
def QueueInv (pred : ObjectId → Bool) (s : State) : Prop :=
  s.next.Nodup ∧ (∀ id ∈ s.next, id ∈ s.seen) ∧ (∀ id ∈ s.next, pred id = true)

/-! ## git-odb/src/store/linked/find.rs : the multi-backend store

The linked store's own logic — the ordered iteration over backend
databases with packed-before-loose precedence — is in `src` and is
embedded verbatim below.  The per-backend primitives it calls
(`internal_find_packed`, `internal_get_packed_object_by_index`, the loose
store, `pack_offset_at_index`, `Pack::entry`, `decompress_entry`) live in
other files of the repository and are abstracted as fields of `Db` /
`Bundle`: arbitrary functions with the source signatures. -/

/-- Backend/decode errors (`compound::find::Error`), abstracted to a code. -/
abbrev DbError := Nat

/-- Decoded object bytes. -/
abbrev Data := List Nat

/-- `compound::find::PackLocation`. -/
structure PackLocation where
  bundleIndex : Nat
  entryIndex : Nat
deriving DecidableEq, Repr

/-- `pack::bundle::Location`. -/
structure Location where
  packId : Nat
  packOffset : Nat
  indexFileId : Nat
  entrySize : Nat
deriving DecidableEq, Repr

/-- A pack entry header as used by `location_by_oid`:
`decompressed_size` and `header_size()`. -/
structure PackEntry where
  decompressedSize : Nat
  headerSize : Nat
deriving DecidableEq, Repr

/-- One pack bundle (index + data file), abstracted to the operations
`location_by_oid` invokes on it. -/
structure Bundle where
  packId : Nat
  packOffsetAtIndex : Nat → Nat
  entryAt : Nat → PackEntry
  decompressEntry : PackEntry → Except DbError Nat

/-- One backend database (`compound::Store`): a loose store plus pack
bundles, abstracted to the operations the linked store invokes. -/
structure Db where
  internalFindPacked : ObjectId → Option PackLocation
  internalGetPackedObjectByIndex : Nat → Nat → Except DbError (Data × Location)
  looseContains : ObjectId → Bool
  looseTryFind : ObjectId → Except DbError (Option Data)
  bundles : List Bundle

/-- `linked::Store`: an ordered list of backend databases. -/
structure Store where
  dbs : List Db

/-- The backend loop of `pack::Find::contains`. -/
def containsDbs (id : ObjectId) : List Db → Bool
  | [] => false
  | db :: rest =>
    if (db.internalFindPacked id).isSome || db.looseContains id then true
    else containsDbs id rest

/-- `pack::Find::contains` for `linked::Store`. -/
def Store.contains (s : Store) (id : ObjectId) : Bool :=
  containsDbs id s.dbs

/-- The backend loop of `try_find_cached`.  The decode cache is passed
through to `internal_get_packed_object_by_index` in the source and is
absorbed into that abstracted function here. -/
def tryFindCachedDbs (id : ObjectId) :
    List Db → Except DbError (Option (Data × Option Location))
  | [] => .ok none
  | db :: rest =>
    match db.internalFindPacked id with
    | some loc =>
      (db.internalGetPackedObjectByIndex loc.bundleIndex loc.entryIndex).map
        fun obj => some (obj.1, some obj.2)
    | none =>
      if db.looseContains id then
        (db.looseTryFind id).map fun o => o.map fun d => (d, none)
      else tryFindCachedDbs id rest

/-- `pack::Find::try_find_cached` for `linked::Store`. -/
def Store.tryFindCached (s : Store) (id : ObjectId) :
    Except DbError (Option (Data × Option Location)) :=
  tryFindCachedDbs id s.dbs

/-- Modelled from the spec: `pack::Find::try_find` (a provided trait
method outside `src`) delegates to `try_find_cached` with a no-op decode
cache, and `crate::Find::try_find` drops the location component. -/
def Store.tryFind (s : Store) (id : ObjectId) : Except DbError (Option Data) :=
  (s.tryFindCached id).map fun o => o.map fun t => t.1

/-- The backend loop of `location_by_oid`.  On a packed hit the source
indexes `db.bundles[bundle_index]` (an index guaranteed valid by
`internal_find_packed`), decompresses the entry and *discards* the error
with `.ok()`, returning from the loop in every packed-hit case. -/
def locationByOidDbs (id : ObjectId) : List Db → Option Location
  | [] => none
  | db :: rest =>
    match db.internalFindPacked id with
    | some loc =>
      match db.bundles.get? loc.bundleIndex with
      | none => none
      | some bundle =>
        let packOffset := bundle.packOffsetAtIndex loc.entryIndex
        let entry := bundle.entryAt packOffset
        ((bundle.decompressEntry entry).toOption).map fun entrySizePastHeader =>
          { packId := bundle.packId
            packOffset := packOffset
            indexFileId := loc.entryIndex
            entrySize := entry.headerSize + entrySizePastHeader }
    | none => locationByOidDbs id rest

/-- `pack::Find::location_by_oid` for `linked::Store`. -/
def Store.locationByOid (s : Store) (id : ObjectId) : Option Location :=
  locationByOidDbs id s.dbs

/-! ## git-odb/src/pack/index.rs : the pack index codec

Bytes are naturals (`< 256` where it matters); a whole index file is a
byte list.  Rust operations that can panic — `split_at` past the length,
`byteorder::read_u32` on a short buffer — are modelled as checked
operations returning `Option`, with `none` standing for a panic. -/

def SHA1_SIZE : Nat := 20
def FOOTER_SIZE : Nat := SHA1_SIZE * 2
def N32_SIZE : Nat := 4
def N64_SIZE : Nat := 8
def FAN_LEN : Nat := 256
def V1_HEADER_SIZE : Nat := FAN_LEN * N32_SIZE
def V2_HEADER_SIZE : Nat := N32_SIZE * 2 + FAN_LEN * N32_SIZE
def N32_HIGH_BIT : Nat := 2 ^ 31

/-- `b"\xfftOc"`. -/
def V2_SIGNATURE : List Nat := [255, 116, 79, 99]

/-- Big-endian u32 read at byte offset `i` (the source reads only
in-bounds slices; out-of-range positions default to 0). -/
def readU32BE (d : List Nat) (i : Nat) : Nat :=
  d.getD i 0 * 16777216 + d.getD (i + 1) 0 * 65536 +
    d.getD (i + 2) 0 * 256 + d.getD (i + 3) 0

/-- Big-endian u64 read at byte offset `i`. -/
def readU64BE (d : List Nat) (i : Nat) : Nat :=
  readU32BE d i * 4294967296 + readU32BE d (i + 4)

/-- `File::offset_crc32_v2`. -/
def offsetCrc32V2 (numObjects : Nat) : Nat :=
  V2_HEADER_SIZE + numObjects * SHA1_SIZE

/-- `File::offset_pack_offset_v2`. -/
def offsetPackOffsetV2 (numObjects : Nat) : Nat :=
  offsetCrc32V2 numObjects + numObjects * N32_SIZE

/-- `File::offset_pack_offset64_v2`. -/
def offsetPackOffset64V2 (numObjects : Nat) : Nat :=
  offsetPackOffsetV2 numObjects + numObjects * N32_SIZE

/-- The offset resolution of `iter_v2` for entry `i`: read the stored
32-bit offset; when its most significant bit is set, the source computes
`pack64_offset + (ofs32 ^ N32_HIGH_BIT) * N64_SIZE` and reads a 64-bit
big-endian value there, else uses the 32-bit value. -/
def entryPackOffsetV2 (d : List Nat) (numObjects i : Nat) : Nat :=
  let ofs32 := readU32BE d (offsetPackOffsetV2 numObjects + i * N32_SIZE)
  if ofs32 &&& N32_HIGH_BIT == N32_HIGH_BIT then
    readU64BE d (offsetPackOffset64V2 numObjects + (ofs32 ^^^ N32_HIGH_BIT) * N64_SIZE)
  else ofs32

/-- The offset resolution rule in the words of the specification: if the
most significant bit of the 32-bit value is set, clear that bit and use
the remaining 31 bits as an index into the 64-bit large-offset table;
otherwise the 32-bit value itself is the offset. -/
def entryPackOffsetV2Spec (d : List Nat) (numObjects i : Nat) : Nat :=
  let ofs32 := readU32BE d (offsetPackOffsetV2 numObjects + i * N32_SIZE)
  if 2 ^ 31 ≤ ofs32 then
    readU64BE d (offsetPackOffset64V2 numObjects + (ofs32 - 2 ^ 31) * N64_SIZE)
  else ofs32

/-- `Kind` of an index file. -/
inductive IndexKind where
  | v1 : IndexKind
  | v2 : IndexKind
deriving DecidableEq, Repr

/-- `pack::index::Error` (the `Io` variant needs a real file handle and
cannot arise from in-memory bytes). -/
inductive IndexError where
  | corrupt (msg : String) : IndexError
  | unsupportedVersion (version : Nat) : IndexError
deriving DecidableEq, Repr

/-- Whether an index error is the `Corrupt` variant. -/
def IndexError.isCorrupt : IndexError → Bool
  | .corrupt _ => true
  | .unsupportedVersion _ => false

/-- The parsed `pack::index::File`. -/
structure IndexFile where
  data : List Nat
  kind : IndexKind
  version : Nat
  numObjects : Nat
  fan : List Nat
deriving DecidableEq, Repr

/-- Checked `slice::split_at`: panics (`none`) when `n` exceeds the
length. -/
def splitAtChecked (n : Nat) (l : List Nat) : Option (List Nat × List Nat) :=
  if n ≤ l.length then some (l.take n, l.drop n) else none

/-- `slice::chunks(4)`: chunks of size 4, the last possibly shorter. -/
def chunksOf4 (l : List Nat) : List (List Nat) :=
  match l with
  | [] => []
  | x :: xs => (x :: xs).take 4 :: chunksOf4 ((x :: xs).drop 4)
termination_by l.length

/-- Checked `BigEndian::read_u32` on a chunk: panics (`none`) when the
chunk holds fewer than 4 bytes. -/
def readU32Chunk (c : List Nat) : Option Nat :=
  if 4 ≤ c.length then some (readU32BE c 0) else none

/-- Read a list of u32 chunks, propagating a panic. -/
def readChunks : List (List Nat) → Option (List Nat)
  | [] => some []
  | c :: cs =>
    match readU32Chunk c with
    | none => none
    | some v =>
      match readChunks cs with
      | none => none
      | some vs => some (v :: vs)

/-- `read_fan`: zip the 4-byte chunks of `d` with the 256 fan slots,
reading a big-endian u32 into each reached slot (unreached slots keep
their 0 initialisation), and report `FAN_LEN * N32_SIZE` bytes read. -/
def readFan (d : List Nat) : Option (List Nat × Nat) :=
  match readChunks ((chunksOf4 d).take FAN_LEN) with
  | none => none
  | some vals =>
    some (vals ++ List.replicate (FAN_LEN - vals.length) 0, FAN_LEN * N32_SIZE)

/-- The tail of `File::at` shared by both kinds: read the fan table from
`d`, perform the source's `d.split_at(bytes_read)`, and build the file
value. -/
def fileAtFinish (data d : List Nat) (kind : IndexKind) (version : Nat) :
    Option (Except IndexError IndexFile) :=
  match readFan d with
  | none => none
  | some fanRead =>
    match splitAtChecked fanRead.2 d with
    | none => none
    | some _ =>
      some (.ok
        { data := data, kind := kind, version := version
          numObjects := fanRead.1.getD (FAN_LEN - 1) 0, fan := fanRead.1 })

/-- `File::at`, on the bytes of the file: reject files smaller than
`FAN_LEN * N32_SIZE + FOOTER_SIZE` as `Corrupt` before any parsing, then
detect the kind from the signature, read the version (V2 only, rejecting
values other than 2) and the fan table.  `none` models a panic. -/
def File.at (data : List Nat) : Option (Except IndexError IndexFile) :=
  let idxLen := data.length
  if idxLen < FAN_LEN * N32_SIZE + FOOTER_SIZE then
    some (.error (.corrupt
      ("Pack index of size " ++ toString idxLen ++
        " is too small for even an empty index")))
  else
    match splitAtChecked V2_SIGNATURE.length data with
    | none => none
    | some (sig, dAfterSig) =>
      if sig = V2_SIGNATURE then
        match splitAtChecked N32_SIZE dAfterSig with
        | none => none
        | some (vd, dAfterVersion) =>
          let v := readU32BE vd 0
          if v ≠ 2 then some (.error (.unsupportedVersion v))
          else fileAtFinish data dAfterVersion .v2 v
      else fileAtFinish data data .v1 1

/-! ## Concrete instances used by counterexamples and witnesses -/

/-- A two-object world: commit 1 has the single parent 2, and 2 is absent
from the store. -/
def exFindAbsent : ObjectId → Option CommitData
  | 1 => some { tokens := [.ok .tree, .ok (.parent 2)], committer := some 10 }
  | _ => none

/-- Date-ordered traversal over `exFindAbsent`, accepting everything. -/
def exCfgDate : Cfg where
  find := exFindAbsent
  predicate := fun _ => true
  mode := .all
  sorting := .byCommitterDate

/-- Graph-ordered traversal over `exFindAbsent`, accepting everything. -/
def exCfgGraph : Cfg where
  find := exFindAbsent
  predicate := fun _ => true
  mode := .all
  sorting := .graphOrder

/-- The initial state for the tip 1. -/
def exStateTip1 : State :=
  (Ancestors.filtered (fun _ => true) [1] { next := [], buf := [], seen := [] }).1

/-- The initial state for the (absent) tip 2. -/
def exStateTip2 : State :=
  (Ancestors.filtered (fun _ => true) [2] { next := [], buf := [], seen := [] }).1

/-- A predicate rejecting exactly the id 3. -/
def rejPred : ObjectId → Bool :=
  fun id => decide (id ≠ 3)

/-- A merge world: commit 1 has parents 2 (committer date 5) and
3 (committer date 9). -/
def exFindMerge : ObjectId → Option CommitData
  | 1 => some { tokens := [.ok .tree, .ok (.parent 2), .ok (.parent 3),
      .ok .other], committer := some 99 }
  | 2 => some { tokens := [.ok .tree, .ok .other], committer := some 5 }
  | 3 => some { tokens := [.ok .tree, .ok .other], committer := some 9 }
  | _ => none

/-- Date-ordered traversal over the merge world. -/
def exCfgMerge : Cfg where
  find := exFindMerge
  predicate := fun _ => true
  mode := .all
  sorting := .byCommitterDate

/-- The initial state of the merge traversal at tip 1. -/
def exStateMerge : State :=
  (Ancestors.filtered (fun _ => true) [1] { next := [], buf := [], seen := [] }).1

/-- A bundle whose entry decompression always fails. -/
def cexBundle : Bundle where
  packId := 1
  packOffsetAtIndex := fun _ => 0
  entryAt := fun _ => { decompressedSize := 4, headerSize := 2 }
  decompressEntry := fun _ => .error 3

/-- A backend holding object 7 packed (in `cexBundle`), whose packed
decode fails, and nothing loose. -/
def cexDb : Db where
  internalFindPacked := fun id => if id = 7 then some ⟨0, 0⟩ else none
  internalGetPackedObjectByIndex := fun _ _ => .error 3
  looseContains := fun _ => false
  looseTryFind := fun _ => .ok none
  bundles := [cexBundle]

/-- A store with the single backend `cexDb`. -/
def cexStore : Store where
  dbs := [cexDb]

/-- A healthy backend: object 7 packed and decodable, object 9 loose. -/
def okDb : Db where
  internalFindPacked := fun id => if id = 7 then some ⟨0, 0⟩ else none
  internalGetPackedObjectByIndex := fun _ _ =>
    .ok ([1, 2, 3], { packId := 1, packOffset := 12, indexFileId := 0, entrySize := 5 })
  looseContains := fun id => id = 9
  looseTryFind := fun id => if id = 9 then .ok (some [4, 5]) else .ok none
  bundles := []

/-- A store with the single backend `okDb`. -/
def okStore : Store where
  dbs := [okDb]

/-- A concrete V2 index byte area: one object whose stored offset has the
high bit set and points at slot 0 of the large-offset table, which holds
`2^32 + 2`. -/
def exIdxData : List Nat :=
  List.replicate 1056 0 ++ [128, 0, 0, 0] ++ [0, 0, 0, 1, 0, 0, 0, 2]

/-! ## Supporting lemmas: bit arithmetic for the V2 offset scheme -/

/-- For a 32-bit value, masking with the high bit yields the high bit
exactly when the value is at least `2^31`. -/
lemma and_high_bit_eq_iff (x : Nat) (hx : x < 2 ^ 32) :
    (x &&& 2 ^ 31 = 2 ^ 31) ↔ 2 ^ 31 ≤ x := by
  rw [Nat.and_two_pow, Nat.testBit_to_div_mod]
  have hpow : (2 : Nat) ^ 31 = 2147483648 := by norm_num
  have hpow' : (2 : Nat) ^ 32 = 4294967296 := by norm_num
  have hd : x / 2 ^ 31 = if 2 ^ 31 ≤ x then 1 else 0 := by
    rw [hpow] at *
    rw [hpow'] at hx
    split <;> omega
  rw [hd]
  split <;> simp_all

/-- Clearing a set high bit by xor is subtraction of `2^31`. -/
lemma xor_high_bit (x : Nat) (h1 : 2 ^ 31 ≤ x) (h2 : x < 2 ^ 32) :
    x ^^^ 2 ^ 31 = x - 2 ^ 31 := by
  obtain ⟨r, hr, rfl⟩ : ∃ r, r < 2 ^ 31 ∧ x = 2 ^ 31 + r := by
    refine ⟨x - 2 ^ 31, ?_, ?_⟩ <;>
      · have hpow : (2 : Nat) ^ 31 = 2147483648 := by norm_num
        have hpow' : (2 : Nat) ^ 32 = 4294967296 := by norm_num
        omega
  have hsub : 2 ^ 31 + r - 2 ^ 31 = r := by omega
  rw [hsub]
  apply Nat.eq_of_testBit_eq
  intro i
  rw [Nat.testBit_xor]
  have hadd : 2 ^ 31 + r = 2 ^ 31 * 1 + r := by ring
  rw [hadd, Nat.testBit_mul_pow_two_add 1 hr i]
  rcases lt_trichotomy i 31 with h | h | h
  · simp [h, Nat.testBit_two_pow_of_ne (by omega : 31 ≠ i)]
  · subst h
    have e1 : Nat.testBit (2 ^ 31) 31 = true := Nat.testBit_two_pow_self
    have e2 : Nat.testBit r 31 = false := Nat.testBit_lt_two_pow hr
    have e3 : Nat.testBit 1 0 = true := rfl
    rw [e1, e2, if_neg (by omega : ¬ (31 : Nat) < 31)]
    simp [e3]
  · have hnot : ¬ i < 31 := by omega
    have hone : (1 : Nat) < 2 ^ (i - 31) := by
      calc (1 : Nat) < 2 ^ 1 := by norm_num
        _ ≤ 2 ^ (i - 31) := Nat.pow_le_pow_right (by norm_num) (by omega)
    have hri : r < 2 ^ i :=
      lt_trans hr (Nat.pow_lt_pow_right (by norm_num) h)
    simp [hnot, Nat.testBit_two_pow_of_ne (by omega : 31 ≠ i),
      Nat.testBit_lt_two_pow hone, Nat.testBit_lt_two_pow hri]

/-- Every big-endian u32 read from genuine bytes is below `2^32`. -/
lemma readU32BE_lt (d : List Nat) (hd : ∀ b ∈ d, b < 256) (i : Nat) :
    readU32BE d i < 2 ^ 32 := by
  have h : ∀ j, d.getD j 0 < 256 := by
    intro j
    rw [List.getD_eq_getElem?_getD]
    cases hj : d[j]? with
    | none => simp
    | some b =>
      have : b ∈ d := List.getElem?_mem hj
      simpa using hd b this
  have h0 := h i
  have h1 := h (i + 1)
  have h2 := h (i + 2)
  have h3 := h (i + 3)
  unfold readU32BE
  have hpow : (2 : Nat) ^ 32 = 4294967296 := by norm_num
  omega

/-- **C8.** For every entry of a V2 pack index, the pack offset is
resolved from its stored 32-bit value exactly as the specification
states: when the most significant bit is set, that bit is cleared and the
remaining 31 bits index the 64-bit big-endian large-offset table;
otherwise the 32-bit value itself is the offset. -/
theorem c8_v2_offset_resolution (d : List Nat) (hd : ∀ b ∈ d, b < 256)
    (numObjects i : Nat) :
    entryPackOffsetV2 d numObjects i = entryPackOffsetV2Spec d numObjects i := by
  unfold entryPackOffsetV2 entryPackOffsetV2Spec N32_HIGH_BIT
  have hlt := readU32BE_lt d hd (offsetPackOffsetV2 numObjects + i * N32_SIZE)
  set ofs32 := readU32BE d (offsetPackOffsetV2 numObjects + i * N32_SIZE) with hofs
  simp only [beq_iff_eq]
  by_cases hcase : 2 ^ 31 ≤ ofs32
  · rw [if_pos ((and_high_bit_eq_iff ofs32 hlt).mpr hcase), if_pos hcase,
      xor_high_bit ofs32 hcase hlt]
  · rw [if_neg (fun hcon => hcase ((and_high_bit_eq_iff ofs32 hlt).mp hcon)),
      if_neg hcase]

set_option maxRecDepth 100000 in
/-- All bytes of the concrete index are genuine bytes. -/
lemma exIdxData_bytes : ∀ b ∈ exIdxData, b < 256 := by
  have h : exIdxData.all (fun b => decide (b < 256)) = true := by rfl
  intro b hb
  exact of_decide_eq_true (List.all_eq_true.mp h b hb)

/-- Witness for C8 at a concrete index: the byte hypothesis holds and the
two resolutions agree. -/
theorem c8_v2_offset_resolution_witness :
    (∀ b ∈ exIdxData, b < 256) ∧
      entryPackOffsetV2 exIdxData 1 0 = entryPackOffsetV2Spec exIdxData 1 0 :=
  ⟨exIdxData_bytes, c8_v2_offset_resolution exIdxData exIdxData_bytes 1 0⟩

/-! ## Supporting lemmas: no panic in `File::at` -/

lemma splitAtChecked_of_le (n : Nat) (l : List Nat) (h : n ≤ l.length) :
    splitAtChecked n l = some (l.take n, l.drop n) := by
  unfold splitAtChecked
  rw [if_pos h]

/-- When `4 * n` bytes are available, the first `n` chunks are full. -/
lemma chunksOf4_take_full :
    ∀ (n : Nat) (l : List Nat), 4 * n ≤ l.length →
      ∀ c ∈ (chunksOf4 l).take n, c.length = 4 := by
  intro n
  induction n with
  | zero => simp
  | succ n ih =>
    intro l h c hc
    match l with
    | [] => simp at h
    | x :: xs =>
      rw [chunksOf4] at hc
      rw [List.take_succ_cons] at hc
      rcases List.mem_cons.mp hc with rfl | hmem
      · have hlen4 : 4 ≤ (x :: xs).length := by omega
        rw [List.length_take]
        omega
      · refine ih ((x :: xs).drop 4) ?_ c hmem
        rw [List.length_drop]
        omega

lemma readChunks_of_full :
    ∀ cs : List (List Nat), (∀ c ∈ cs, 4 ≤ c.length) →
      ∃ vs, readChunks cs = some vs := by
  intro cs
  induction cs with
  | nil => exact fun _ => ⟨[], rfl⟩
  | cons c cs ih =>
    intro h
    obtain ⟨vs, hvs⟩ := ih fun d hd => h d (List.mem_cons_of_mem _ hd)
    refine ⟨readU32BE c 0 :: vs, ?_⟩
    have hc : readU32Chunk c = some (readU32BE c 0) := by
      unfold readU32Chunk
      rw [if_pos (h c (by simp))]
    simp [readChunks, hc, hvs]

lemma readFan_of_le (d : List Nat) (h : 1024 ≤ d.length) :
    ∃ fan, readFan d = some (fan, FAN_LEN * N32_SIZE) := by
  obtain ⟨vs, hvs⟩ := readChunks_of_full ((chunksOf4 d).take FAN_LEN)
    (fun c hc => by
      have := chunksOf4_take_full FAN_LEN d (by simp [FAN_LEN]; omega) c hc
      omega)
  exact ⟨_, by rw [readFan, hvs]⟩

lemma fileAtFinish_of_le (data d : List Nat) (kind : IndexKind) (version : Nat)
    (h : 1024 ≤ d.length) :
    ∃ f, fileAtFinish data d kind version = some (.ok f) := by
  obtain ⟨fan, hfan⟩ := readFan_of_le d h
  have hsplit := splitAtChecked_of_le (FAN_LEN * N32_SIZE) d
    (by simp only [FAN_LEN, N32_SIZE]; omega)
  refine ⟨{ data := data, kind := kind, version := version
            numObjects := fan.getD (FAN_LEN - 1) 0, fan := fan }, ?_⟩
  simp [fileAtFinish, hfan, hsplit]

/-- **C9.** Opening a pack index first checks the file size against
`256*4 + 40 = 1064` bytes: every smaller file yields a `Corrupt` error,
and no input of any size makes the header parsing (signature split,
version read, fan-table read) panic (`File.at` never returns `none`). -/
theorem c9_open_size_check (data : List Nat) :
    FAN_LEN * N32_SIZE + FOOTER_SIZE = 1064 ∧
    (data.length < 1064 →
      ∃ msg, File.at data = some (.error (.corrupt msg))) ∧
    File.at data ≠ none := by
  have hconst : FAN_LEN * N32_SIZE + FOOTER_SIZE = 1064 := by
    simp [FAN_LEN, N32_SIZE, FOOTER_SIZE, SHA1_SIZE]
  refine ⟨hconst, ?_, ?_⟩
  · intro hlen
    simp only [File.at]
    rw [if_pos (by omega : data.length < FAN_LEN * N32_SIZE + FOOTER_SIZE)]
    exact ⟨_, rfl⟩
  · simp only [File.at]
    by_cases hlen : data.length < FAN_LEN * N32_SIZE + FOOTER_SIZE
    · rw [if_pos hlen]
      simp
    · rw [if_neg hlen]
      have hlen' : 1064 ≤ data.length := by omega
      simp only [splitAtChecked_of_le V2_SIGNATURE.length data
        (by simp [V2_SIGNATURE]; omega)]
      by_cases hsig : data.take V2_SIGNATURE.length = V2_SIGNATURE
      · rw [if_pos hsig]
        simp only [splitAtChecked_of_le N32_SIZE (data.drop V2_SIGNATURE.length)
          (by simp [N32_SIZE, V2_SIGNATURE]; omega)]
        by_cases hv : readU32BE ((data.drop V2_SIGNATURE.length).take N32_SIZE) 0 ≠ 2
        · rw [if_pos hv]
          simp
        · rw [if_neg hv]
          obtain ⟨f, hf⟩ := fileAtFinish_of_le data
            ((data.drop V2_SIGNATURE.length).drop N32_SIZE) .v2
            (readU32BE ((data.drop V2_SIGNATURE.length).take N32_SIZE) 0)
            (by simp [N32_SIZE, V2_SIGNATURE]; omega)
          rw [hf]
          simp
      · rw [if_neg hsig]
        obtain ⟨f, hf⟩ := fileAtFinish_of_le data data .v1 1 (by omega)
        rw [hf]
        simp

/-- Witness for C9 at the empty file: the size hypothesis holds and the
result is a `Corrupt` error, not a panic. -/
theorem c9_open_size_check_witness :
    (List.length ([] : List Nat) < 1064 ∧
      ∃ msg, File.at [] = some (.error (.corrupt msg))) ∧
    File.at [] ≠ none := by
  refine ⟨⟨by decide, (c9_open_size_check []).2.1 (by decide)⟩,
    (c9_open_size_check []).2.2⟩

/-! ## Supporting lemmas: multi-backend store (C1, C4) -/

/-- When an id is in no backend, the cached lookup reports `Ok(None)`. -/
lemma tryFindCachedDbs_absent (id : ObjectId) :
    ∀ dbs : List Db,
      (∀ db ∈ dbs, db.internalFindPacked id = none ∧ db.looseContains id = false) →
      tryFindCachedDbs id dbs = .ok none := by
  intro dbs
  induction dbs with
  | nil => intro _; rfl
  | cons db rest ih =>
    intro h
    obtain ⟨hpacked, hloose⟩ := h db (by simp)
    rw [tryFindCachedDbs, hpacked, if_neg (by simp [hloose])]
    exact ih fun d hd => h d (List.mem_cons_of_mem _ hd)

/-- When an id is in no backend, `location_by_oid` reports `None`. -/
lemma locationByOidDbs_absent (id : ObjectId) :
    ∀ dbs : List Db,
      (∀ db ∈ dbs, db.internalFindPacked id = none ∧ db.looseContains id = false) →
      locationByOidDbs id dbs = none := by
  intro dbs
  induction dbs with
  | nil => intro _; rfl
  | cons db rest ih =>
    intro h
    obtain ⟨hpacked, _⟩ := h db (by simp)
    rw [locationByOidDbs, hpacked]
    exact ih fun d hd => h d (List.mem_cons_of_mem _ hd)

/-- The `contains` / `try_find` agreement, at the backend-list level. -/
lemma containsDbs_iff_tryFindDbs (id : ObjectId) :
    ∀ dbs : List Db,
      (∀ db ∈ dbs, ∀ bi ei, ∃ v, db.internalGetPackedObjectByIndex bi ei = .ok v) →
      (∀ db ∈ dbs, db.looseContains id = true →
        ∃ d, db.looseTryFind id = .ok (some d)) →
      (containsDbs id dbs = true ↔
        ∃ v, (tryFindCachedDbs id dbs).map (fun o => o.map fun t => t.1) =
          .ok (some v)) := by
  intro dbs
  induction dbs with
  | nil =>
    intro _ _
    simp [containsDbs, tryFindCachedDbs, Except.map]
  | cons db rest ih =>
    intro hget hloose
    cases hpacked : db.internalFindPacked id with
    | some loc =>
      obtain ⟨v, hv⟩ := hget db (by simp) loc.bundleIndex loc.entryIndex
      have hL : containsDbs id (db :: rest) = true := by
        simp [containsDbs, hpacked]
      have hR : (tryFindCachedDbs id (db :: rest)).map
          (fun o => o.map fun t => t.1) = .ok (some v.1) := by
        simp [tryFindCachedDbs, hpacked, hv, Except.map]
      exact ⟨fun _ => ⟨v.1, hR⟩, fun _ => hL⟩
    | none =>
      cases hlc : db.looseContains id with
      | true =>
        obtain ⟨d, hd⟩ := hloose db (by simp) hlc
        have hL : containsDbs id (db :: rest) = true := by
          simp [containsDbs, hlc]
        have hR : (tryFindCachedDbs id (db :: rest)).map
            (fun o => o.map fun t => t.1) = .ok (some d) := by
          simp [tryFindCachedDbs, hpacked, hlc, hd, Except.map]
        exact ⟨fun _ => ⟨d, hR⟩, fun _ => hL⟩
      | false =>
        have hL : containsDbs id (db :: rest) = containsDbs id rest := by
          simp [containsDbs, hpacked, hlc]
        have hR : tryFindCachedDbs id (db :: rest) = tryFindCachedDbs id rest := by
          simp [tryFindCachedDbs, hpacked, hlc]
        rw [hL, hR]
        exact ih (fun d hd => hget d (List.mem_cons_of_mem _ hd))
          (fun d hd => hloose d (List.mem_cons_of_mem _ hd))

/-- **C4 (amended scope: as stated).** With error-free backends,
`contains(id)` holds exactly when `try_find(id)` yields `Some` data; a
backend whose packed index knows the id answers from packed storage alone
(loose storage and later backends untouched), a packed miss with a loose
hit answers from loose storage alone, and a full miss defers to the
remaining backends — both operations traversing the backends in the same
order. -/
theorem c4_contains_iff_try_find (s : Store) (id : ObjectId)
    (hget : ∀ db ∈ s.dbs, ∀ bi ei,
      ∃ v, db.internalGetPackedObjectByIndex bi ei = .ok v)
    (hloose : ∀ db ∈ s.dbs, db.looseContains id = true →
      ∃ d, db.looseTryFind id = .ok (some d)) :
    (s.contains id = true ↔ ∃ v, s.tryFind id = .ok (some v)) ∧
    (∀ db rest loc, db.internalFindPacked id = some loc →
      tryFindCachedDbs id (db :: rest) =
        (db.internalGetPackedObjectByIndex loc.bundleIndex loc.entryIndex).map
          (fun obj => some (obj.1, some obj.2)) ∧
      containsDbs id (db :: rest) = true) ∧
    (∀ db rest, db.internalFindPacked id = none → db.looseContains id = true →
      tryFindCachedDbs id (db :: rest) =
        (db.looseTryFind id).map (fun o => o.map fun d => (d, none)) ∧
      containsDbs id (db :: rest) = true) ∧
    (∀ db rest, db.internalFindPacked id = none → db.looseContains id = false →
      tryFindCachedDbs id (db :: rest) = tryFindCachedDbs id rest ∧
      containsDbs id (db :: rest) = containsDbs id rest) := by
  refine ⟨containsDbs_iff_tryFindDbs id s.dbs hget hloose, ?_, ?_, ?_⟩
  · intro db rest loc hpacked
    exact ⟨by simp [tryFindCachedDbs, hpacked], by simp [containsDbs, hpacked]⟩
  · intro db rest hpacked hlc
    exact ⟨by simp [tryFindCachedDbs, hpacked, hlc], by simp [containsDbs, hlc]⟩
  · intro db rest hpacked hlc
    exact ⟨by simp [tryFindCachedDbs, hpacked, hlc],
      by simp [containsDbs, hpacked, hlc]⟩

/-- Witness for C4 on the healthy one-backend store, at the packed id 7. -/
theorem c4_contains_iff_try_find_witness :
    (okStore.contains 7 = true ↔ ∃ v, okStore.tryFind 7 = .ok (some v)) ∧
    (∀ db rest loc, db.internalFindPacked 7 = some loc →
      tryFindCachedDbs 7 (db :: rest) =
        (db.internalGetPackedObjectByIndex loc.bundleIndex loc.entryIndex).map
          (fun obj => some (obj.1, some obj.2)) ∧
      containsDbs 7 (db :: rest) = true) ∧
    (∀ db rest, db.internalFindPacked 7 = none → db.looseContains 7 = true →
      tryFindCachedDbs 7 (db :: rest) =
        (db.looseTryFind 7).map (fun o => o.map fun d => (d, none)) ∧
      containsDbs 7 (db :: rest) = true) ∧
    (∀ db rest, db.internalFindPacked 7 = none → db.looseContains 7 = false →
      tryFindCachedDbs 7 (db :: rest) = tryFindCachedDbs 7 rest ∧
      containsDbs 7 (db :: rest) = containsDbs 7 rest) :=
  c4_contains_iff_try_find okStore 7
    (by
      intro db hdb bi ei
      have hdb' : db = okDb := by simpa [okStore] using hdb
      subst hdb'
      exact ⟨_, rfl⟩)
    (by
      intro db hdb h
      have hdb' : db = okDb := by simpa [okStore] using hdb
      subst hdb'
      exact ⟨[4, 5], by simp [okDb] at h ⊢⟩)

/-- **C1, counterexample.** In `cexStore` the id 7 *is* present in packed
storage and its entry fails to decompress, yet `location_by_oid` returns
`None` — the very value it returns for the absent id 8.  The claim's
demand that `location_by_oid` propagate an error distinct from absence is
therefore false (its return type has no error channel at all). -/
theorem c1_counterexample :
    (cexDb.internalFindPacked 7).isSome = true ∧
    cexBundle.decompressEntry
      (cexBundle.entryAt (cexBundle.packOffsetAtIndex 0)) = .error 3 ∧
    cexStore.locationByOid 7 = none ∧
    (cexDb.internalFindPacked 8).isSome = false ∧
    cexDb.looseContains 8 = false ∧
    cexStore.locationByOid 8 = none := by
  refine ⟨rfl, rfl, rfl, rfl, rfl, rfl⟩

/-- **C1 (amended).** Absence gives the empty result from both lookup
operations (`Ok(None)` / `None`); `try_find_cached` propagates a packed
decode error as `Err`, distinct from `Ok(None)`; but `location_by_oid`
collapses a failing decompression to `None`, indistinguishable from
absence. -/
theorem c1_absence_vs_error (s : Store) (id : ObjectId) :
    ((∀ db ∈ s.dbs, db.internalFindPacked id = none ∧
        db.looseContains id = false) →
      s.tryFindCached id = .ok none ∧ s.locationByOid id = none) ∧
    (∀ db rest loc e, s.dbs = db :: rest →
      db.internalFindPacked id = some loc →
      db.internalGetPackedObjectByIndex loc.bundleIndex loc.entryIndex = .error e →
      s.tryFindCached id = .error e) ∧
    (∀ db rest loc bundle e, s.dbs = db :: rest →
      db.internalFindPacked id = some loc →
      db.bundles.get? loc.bundleIndex = some bundle →
      bundle.decompressEntry
        (bundle.entryAt (bundle.packOffsetAtIndex loc.entryIndex)) = .error e →
      s.locationByOid id = none) := by
  refine ⟨?_, ?_, ?_⟩
  · intro h
    exact ⟨tryFindCachedDbs_absent id s.dbs h, locationByOidDbs_absent id s.dbs h⟩
  · intro db rest loc e hdbs hpacked hget
    show tryFindCachedDbs id s.dbs = .error e
    rw [hdbs]
    simp [tryFindCachedDbs, hpacked, hget, Except.map]
  · intro db rest loc bundle e hdbs hpacked hbundle hdec
    show locationByOidDbs id s.dbs = none
    rw [hdbs]
    rw [List.get?_eq_getElem?] at hbundle
    simp [locationByOidDbs, hpacked, hbundle, hdec, Except.toOption]

/-- Witness for the amended C1, on `cexStore`: id 8 is absent (empty
results), id 7 is present with a failing decode (`Err` from
`try_find_cached`, but `None` from `location_by_oid`). -/
theorem c1_absence_vs_error_witness :
    (cexStore.tryFindCached 8 = .ok none ∧ cexStore.locationByOid 8 = none) ∧
    cexStore.tryFindCached 7 = .error 3 ∧
    cexStore.locationByOid 7 = none := by
  refine ⟨(c1_absence_vs_error cexStore 8).1 ?_,
    (c1_absence_vs_error cexStore 7).2.1 cexDb [] ⟨0, 0⟩ 3 rfl rfl rfl,
    (c1_absence_vs_error cexStore 7).2.2 cexDb [] ⟨0, 0⟩ cexBundle 3 rfl rfl rfl rfl⟩
  intro db hdb
  have hdb' : db = cexDb := by simpa [cexStore] using hdb
  subst hdb'
  exact ⟨rfl, rfl⟩

/-! ## Supporting lemmas: the enqueue loops of the traversal -/

/-- What the date-mode enqueue loop guarantees: the queue is only
appended with fresh, predicate-accepted ids drawn from the batch, the
appended ids are pairwise distinct, every appended id is marked seen, and
the seen set only grows. -/
lemma enqueueParents_spec (pred : ObjectId → Bool) :
    ∀ (ids next seen : List ObjectId),
      ∃ fresh : List ObjectId,
        (enqueueParents pred ids next seen).1 = next ++ fresh ∧
        fresh.Nodup ∧
        (∀ id ∈ fresh, id ∉ seen ∧ pred id = true ∧ id ∈ ids ∧
          id ∈ (enqueueParents pred ids next seen).2) ∧
        (∀ id ∈ seen, id ∈ (enqueueParents pred ids next seen).2) := by
  intro ids
  induction ids with
  | nil =>
    intro next seen
    exact ⟨[], by simp [enqueueParents], List.nodup_nil, by simp,
      by simp [enqueueParents]⟩
  | cons id rest ih =>
    intro next seen
    by_cases hmem : id ∈ seen
    · have heq : enqueueParents pred (id :: rest) next seen =
          enqueueParents pred rest next seen := by
        simp [enqueueParents, seenInsert, hmem]
      obtain ⟨fresh, h1, h2, h3, h4⟩ := ih next seen
      rw [heq]
      exact ⟨fresh, h1, h2,
        fun x hx => ⟨(h3 x hx).1, (h3 x hx).2.1,
          List.mem_cons_of_mem _ (h3 x hx).2.2.1, (h3 x hx).2.2.2⟩, h4⟩
    · by_cases hpred : pred id = true
      · have heq : enqueueParents pred (id :: rest) next seen =
            enqueueParents pred rest (next ++ [id]) (seen ++ [id]) := by
          simp [enqueueParents, seenInsert, hmem, hpred]
        obtain ⟨fresh, h1, h2, h3, h4⟩ := ih (next ++ [id]) (seen ++ [id])
        rw [heq]
        refine ⟨id :: fresh, ?_, ?_, ?_, ?_⟩
        · rw [h1, List.append_assoc]
          rfl
        · refine List.Nodup.cons (fun hc => ?_) h2
          exact (h3 id hc).1 (by simp)
        · intro x hx
          rcases List.mem_cons.mp hx with rfl | hx'
          · exact ⟨hmem, hpred, by simp, h4 x (by simp)⟩
          · refine ⟨fun hc => (h3 x hx').1 (by simp [hc]), (h3 x hx').2.1,
              List.mem_cons_of_mem _ (h3 x hx').2.2.1, (h3 x hx').2.2.2⟩
        · intro x hx
          exact h4 x (by simp [hx])
      · have heq : enqueueParents pred (id :: rest) next seen =
            enqueueParents pred rest next (seen ++ [id]) := by
          simp [enqueueParents, seenInsert, hmem, hpred]
        obtain ⟨fresh, h1, h2, h3, h4⟩ := ih next (seen ++ [id])
        rw [heq]
        refine ⟨fresh, h1, h2, ?_, ?_⟩
        · intro x hx
          refine ⟨fun hc => (h3 x hx).1 (by simp [hc]), (h3 x hx).2.1,
            List.mem_cons_of_mem _ (h3 x hx).2.2.1, (h3 x hx).2.2.2⟩
        · intro x hx
          exact h4 x (by simp [hx])

/-- The same guarantees for the parent-token loop of `graph_sort_next`
(which additionally marks seen the parents it does not enqueue). -/
lemma graphLoop_spec (pred : ObjectId → Bool) (mode : Parents) :
    ∀ (tokens : List (Except DecodeErr Token)) (next seen : List ObjectId),
      ∃ fresh : List ObjectId,
        (graphLoop pred mode tokens next seen).2.1 = next ++ fresh ∧
        fresh.Nodup ∧
        (∀ id ∈ fresh, id ∉ seen ∧ pred id = true ∧
          id ∈ (graphLoop pred mode tokens next seen).2.2) ∧
        (∀ id ∈ seen, id ∈ (graphLoop pred mode tokens next seen).2.2) := by
  intro tokens
  induction tokens with
  | nil =>
    intro next seen
    exact ⟨[], by simp [graphLoop], List.nodup_nil, by simp, by simp [graphLoop]⟩
  | cons tok rest ih =>
    intro next seen
    match tok with
    | .error e =>
      exact ⟨[], by simp [graphLoop], List.nodup_nil, by simp, by simp [graphLoop]⟩
    | .ok .tree =>
      exact ⟨[], by simp [graphLoop], List.nodup_nil, by simp, by simp [graphLoop]⟩
    | .ok .other =>
      exact ⟨[], by simp [graphLoop], List.nodup_nil, by simp, by simp [graphLoop]⟩
    | .ok (.parent id) =>
      by_cases hmem : id ∈ seen
      · have heq : ∀ m, graphLoop pred m (.ok (.parent id) :: rest) next seen =
            match m with
            | Parents.first => (none, next, seen)
            | Parents.all => graphLoop pred Parents.all rest next seen := by
          intro m
          cases m <;> simp [graphLoop, seenInsert, hmem]
        match mode with
        | .first =>
          rw [heq .first]
          exact ⟨[], by simp, List.nodup_nil, by simp, by simp⟩
        | .all =>
          rw [heq .all]
          exact ih next seen
      · by_cases hpred : pred id = true
        · match mode with
          | .first =>
            have heq : graphLoop pred .first (.ok (.parent id) :: rest) next seen =
                (none, next ++ [id], seen ++ [id]) := by
              simp [graphLoop, seenInsert, hmem, hpred]
            rw [heq]
            exact ⟨[id], rfl, List.nodup_singleton _,
              fun x hx => by
                rcases List.mem_singleton.mp hx with rfl
                exact ⟨hmem, hpred, by simp⟩,
              fun x hx => by simp [hx]⟩
          | .all =>
            have heq : graphLoop pred .all (.ok (.parent id) :: rest) next seen =
                graphLoop pred .all rest (next ++ [id]) (seen ++ [id]) := by
              simp [graphLoop, seenInsert, hmem, hpred]
            obtain ⟨fresh, h1, h2, h3, h4⟩ := ih (next ++ [id]) (seen ++ [id])
            rw [heq]
            refine ⟨id :: fresh, ?_, ?_, ?_, ?_⟩
            · rw [h1, List.append_assoc]
              rfl
            · refine List.Nodup.cons (fun hc => ?_) h2
              exact (h3 id hc).1 (by simp)
            · intro x hx
              rcases List.mem_cons.mp hx with rfl | hx'
              · exact ⟨hmem, hpred, h4 x (by simp)⟩
              · exact ⟨fun hc => (h3 x hx').1 (by simp [hc]), (h3 x hx').2.1,
                  (h3 x hx').2.2⟩
            · intro x hx
              exact h4 x (by simp [hx])
        · match mode with
          | .first =>
            have heq : graphLoop pred .first (.ok (.parent id) :: rest) next seen =
                (none, next, seen ++ [id]) := by
              simp [graphLoop, seenInsert, hmem, hpred]
            rw [heq]
            exact ⟨[], by simp, List.nodup_nil, by simp, fun x hx => by simp [hx]⟩
          | .all =>
            have heq : graphLoop pred .all (.ok (.parent id) :: rest) next seen =
                graphLoop pred .all rest next (seen ++ [id]) := by
              simp [graphLoop, seenInsert, hmem, hpred]
            obtain ⟨fresh, h1, h2, h3, h4⟩ := ih next (seen ++ [id])
            rw [heq]
            refine ⟨fresh, h1, h2, ?_, ?_⟩
            · intro x hx
              exact ⟨fun hc => (h3 x hx).1 (by simp [hc]), (h3 x hx).2.1,
                (h3 x hx).2.2⟩
            · intro x hx
              exact h4 x (by simp [hx])

/-- On an empty queue, `next` yields nothing and leaves the state as is. -/
lemma step_empty (c : Cfg) (s : State) (hnext : s.next = []) :
    step c s = (none, s) := by
  cases hs : c.sorting <;>
    simp [step, hs, graphSortNext, nextByCommitDate, hnext]

/-- One `graph_sort_next` call on a state with head `h`: an item is
yielded and mentions only `h`; the new queue is the old tail plus fresh,
distinct, predicate-accepted ids, each marked seen; the seen set grows. -/
lemma graphSortNext_spec (c : Cfg) (s : State) (h : ObjectId)
    (t : List ObjectId) (hnext : s.next = h :: t) :
    ∃ (it : Item) (fresh : List ObjectId),
      (graphSortNext c s).1 = some it ∧
      itemIds it ⊆ [h] ∧
      (graphSortNext c s).2.next = t ++ fresh ∧
      fresh.Nodup ∧
      (∀ id ∈ fresh, id ∉ s.seen ∧ c.predicate id = true ∧
        id ∈ (graphSortNext c s).2.seen) ∧
      (∀ id ∈ s.seen, id ∈ (graphSortNext c s).2.seen) := by
  cases hfind : c.find h with
  | none =>
    refine ⟨.error (.notFound h), [], ?_, ?_, ?_, List.nodup_nil, by simp, ?_⟩ <;>
      simp [graphSortNext, hnext, hfind, itemIds]
  | some commit =>
    rcases htok : commit.tokens with _ | ⟨tk, tl⟩
    · refine ⟨.ok h, [], ?_, by simp [itemIds], ?_, List.nodup_nil, by simp, ?_⟩ <;>
        simp [graphSortNext, hnext, hfind, htok, graphLoop]
    · cases tk with
      | error e =>
        refine ⟨.error (.objectDecode e), [], ?_, by simp [itemIds], ?_,
          List.nodup_nil, by simp, ?_⟩ <;>
          simp [graphSortNext, hnext, hfind, htok]
      | ok tok =>
        obtain ⟨fresh, h1, h2, h3, h4⟩ := graphLoop_spec c.predicate c.mode tl t s.seen
        have hred : graphSortNext c s =
            match (graphLoop c.predicate c.mode tl t s.seen).1 with
            | some e => (some (.error (.objectDecode e)),
                { s with next := (graphLoop c.predicate c.mode tl t s.seen).2.1,
                         seen := (graphLoop c.predicate c.mode tl t s.seen).2.2 })
            | none => (some (.ok h),
                { s with next := (graphLoop c.predicate c.mode tl t s.seen).2.1,
                         seen := (graphLoop c.predicate c.mode tl t s.seen).2.2 }) := by
          cases tok <;> simp [graphSortNext, hnext, hfind, htok]
        cases hr : (graphLoop c.predicate c.mode tl t s.seen).1 with
        | some e =>
          rw [hr] at hred
          exact ⟨.error (.objectDecode e), fresh, by rw [hred],
            by simp [itemIds], by rw [hred]; exact h1, h2,
            fun id hid => ⟨(h3 id hid).1, (h3 id hid).2.1,
              by rw [hred]; exact (h3 id hid).2.2⟩,
            fun id hid => by rw [hred]; exact h4 id hid⟩
        | none =>
          rw [hr] at hred
          exact ⟨.ok h, fresh, by rw [hred], by simp [itemIds],
            by rw [hred]; exact h1, h2,
            fun id hid => ⟨(h3 id hid).1, (h3 id hid).2.1,
              by rw [hred]; exact (h3 id hid).2.2⟩,
            fun id hid => by rw [hred]; exact h4 id hid⟩

/-- The same guarantees for one `next_by_commit_date` call. -/
lemma nextByCommitDate_spec (c : Cfg) (s : State) (h : ObjectId)
    (t : List ObjectId) (hnext : s.next = h :: t) :
    ∃ (it : Item) (fresh : List ObjectId),
      (nextByCommitDate c s).1 = some it ∧
      itemIds it ⊆ [h] ∧
      (nextByCommitDate c s).2.next = t ++ fresh ∧
      fresh.Nodup ∧
      (∀ id ∈ fresh, id ∉ s.seen ∧ c.predicate id = true ∧
        id ∈ (nextByCommitDate c s).2.seen) ∧
      (∀ id ∈ s.seen, id ∈ (nextByCommitDate c s).2.seen) := by
  cases hfind : c.find h with
  | none =>
    refine ⟨.error (.notFound h), [], ?_, ?_, ?_, List.nodup_nil, by simp, ?_⟩ <;>
      simp [nextByCommitDate, hnext, hfind, itemIds]
  | some commit =>
    rcases htok : commit.tokens with _ | ⟨tk, tl⟩
    · refine ⟨.ok h, [], ?_, by simp [itemIds], ?_, List.nodup_nil, by simp, ?_⟩ <;>
        simp [nextByCommitDate, hnext, hfind, htok, dateLoop, sortByDateDesc,
          enqueueParents]
    · cases tk with
      | error e =>
        refine ⟨.error (.objectDecode e), [], ?_, by simp [itemIds], ?_,
          List.nodup_nil, by simp, ?_⟩ <;>
          simp [nextByCommitDate, hnext, hfind, htok]
      | ok tok =>
        have hred : nextByCommitDate c s =
            match dateLoop c tl [] with
            | .error e => (some (.error (.objectDecode e)), { s with next := t })
            | .ok batch =>
              (some (.ok h),
                { s with
                  next := (enqueueParents c.predicate
                    ((sortByDateDesc batch).map Prod.fst) t s.seen).1,
                  seen := (enqueueParents c.predicate
                    ((sortByDateDesc batch).map Prod.fst) t s.seen).2 }) := by
          cases tok <;> simp [nextByCommitDate, hnext, hfind, htok]
        cases hdl : dateLoop c tl [] with
        | error e =>
          rw [hdl] at hred
          exact ⟨.error (.objectDecode e), [], by rw [hred],
            by simp [itemIds], by rw [hred]; simp, List.nodup_nil, by simp,
            fun id hid => by rw [hred]; exact hid⟩
        | ok batch =>
          rw [hdl] at hred
          obtain ⟨fresh, h1, h2, h3, h4⟩ := enqueueParents_spec c.predicate
            ((sortByDateDesc batch).map Prod.fst) t s.seen
          exact ⟨.ok h, fresh, by rw [hred], by simp [itemIds],
            by rw [hred]; exact h1, h2,
            fun id hid => ⟨(h3 id hid).1, (h3 id hid).2.1,
              by rw [hred]; exact (h3 id hid).2.2.2⟩,
            fun id hid => by rw [hred]; exact h4 id hid⟩

/-- One `next` call on a state with head `h`, in either sorting mode. -/
lemma step_spec (c : Cfg) (s : State) (h : ObjectId)
    (t : List ObjectId) (hnext : s.next = h :: t) :
    ∃ (it : Item) (fresh : List ObjectId),
      (step c s).1 = some it ∧
      itemIds it ⊆ [h] ∧
      (step c s).2.next = t ++ fresh ∧
      fresh.Nodup ∧
      (∀ id ∈ fresh, id ∉ s.seen ∧ c.predicate id = true ∧
        id ∈ (step c s).2.seen) ∧
      (∀ id ∈ s.seen, id ∈ (step c s).2.seen) := by
  cases hs : c.sorting with
  | graphOrder =>
    have : step c s = graphSortNext c s := by rw [step, hs]
    rw [this]
    exact graphSortNext_spec c s h t hnext
  | byCommitterDate =>
    have : step c s = nextByCommitDate c s := by rw [step, hs]
    rw [this]
    exact nextByCommitDate_spec c s h t hnext

/-- Unfolding `run` once when an item is yielded. -/
lemma run_succ_of_some (c : Cfg) (s : State) (fuel : Nat) (it : Item)
    (hit : (step c s).1 = some it) :
    run c (fuel + 1) s = it :: run c fuel (step c s).2 := by
  have hstep : step c s = (some it, (step c s).2) := Prod.ext hit rfl
  rw [run, hstep]

/-- A drained traversal stays drained and yields nothing. -/
lemma run_of_empty (c : Cfg) (s : State) (hn : s.next = []) :
    ∀ fuel, run c fuel s = [] := by
  intro fuel
  cases fuel with
  | zero => rfl
  | succ fuel =>
    rw [run, step_empty c s hn]

/-- `next` preserves the queue invariant. -/
lemma step_queueInv (c : Cfg) (s : State) (hinv : QueueInv c.predicate s) :
    QueueInv c.predicate (step c s).2 := by
  rcases hn : s.next with _ | ⟨h, t⟩
  · rw [step_empty c s hn]
    exact hinv
  · obtain ⟨it, fresh, hit, hsub, hnext', hnodup, hfresh, hmono⟩ :=
      step_spec c s h t hn
    obtain ⟨hnd, hseen, hpred⟩ := hinv
    rw [hn] at hnd
    refine ⟨?_, ?_, ?_⟩
    · rw [hnext']
      refine List.Nodup.append (List.Nodup.of_cons hnd) hnodup ?_
      intro a hat hafresh
      exact (hfresh a hafresh).1 (hseen a (hn ▸ List.mem_cons_of_mem _ hat))
    · intro id hid
      rw [hnext'] at hid
      rcases List.mem_append.mp hid with hid' | hid'
      · exact hmono id (hseen id (hn ▸ List.mem_cons_of_mem _ hid'))
      · exact (hfresh id hid').2.2
    · intro id hid
      rw [hnext'] at hid
      rcases List.mem_append.mp hid with hid' | hid'
      · exact hpred id (hn ▸ List.mem_cons_of_mem _ hid')
      · exact (hfresh id hid').2.1

/-- The queue invariant holds after any number of `next` calls. -/
lemma runState_queueInv (c : Cfg) :
    ∀ (fuel : Nat) (s : State), QueueInv c.predicate s →
      QueueInv c.predicate (runState c fuel s) := by
  intro fuel
  induction fuel with
  | zero => exact fun s h => h
  | succ fuel ih =>
    intro s hinv
    rw [runState]
    exact ih _ (step_queueInv c s hinv)

/-- An id already seen and no longer pending is never mentioned by any
later output item. -/
lemma not_yielded_of_seen_not_queued (c : Cfg) :
    ∀ (fuel : Nat) (s : State) (x : ObjectId), QueueInv c.predicate s →
      x ∈ s.seen → x ∉ s.next → x ∉ yieldedIds (run c fuel s) := by
  intro fuel
  induction fuel with
  | zero => simp [run, yieldedIds]
  | succ fuel ih =>
    intro s x hinv hxseen hxnext
    rcases hn : s.next with _ | ⟨h, t⟩
    · rw [run_of_empty c s hn]
      simp [yieldedIds]
    · obtain ⟨it, fresh, hit, hsub, hnext', hnodup, hfresh, hmono⟩ :=
        step_spec c s h t hn
      rw [run_succ_of_some c s fuel it hit]
      intro hx
      rw [yieldedIds, List.flatMap_cons] at hx
      rcases List.mem_append.mp hx with hx' | hx'
      · have : x = h := List.mem_singleton.mp (hsub hx')
        exact hxnext (this ▸ hn ▸ List.mem_cons_self _ _)
      · refine ih (step c s).2 x (step_queueInv c s hinv) (hmono x hxseen) ?_ hx'
        rw [hnext']
        intro hc
        rcases List.mem_append.mp hc with hc' | hc'
        · exact hxnext (hn ▸ List.mem_cons_of_mem _ hc')
        · exact (hfresh x hc').1 hxseen

/-- Under the queue invariant, no id is mentioned twice in the output. -/
lemma run_yielded_nodup (c : Cfg) :
    ∀ (fuel : Nat) (s : State), QueueInv c.predicate s →
      (yieldedIds (run c fuel s)).Nodup := by
  intro fuel
  induction fuel with
  | zero => simp [run, yieldedIds]
  | succ fuel ih =>
    intro s hinv
    rcases hn : s.next with _ | ⟨h, t⟩
    · rw [run_of_empty c s hn]
      simp [yieldedIds]
    · obtain ⟨it, fresh, hit, hsub, hnext', hnodup, hfresh, hmono⟩ :=
        step_spec c s h t hn
    -- after the head is dequeued it is seen and no longer pending
      have hinv' := step_queueInv c s hinv
      have hhseen : h ∈ s.seen := hinv.2.1 h (hn ▸ List.mem_cons_self _ _)
      have hhnot : h ∉ (step c s).2.next := by
        rw [hnext']
        intro hc
        rcases List.mem_append.mp hc with hc' | hc'
        · have hnd := hinv.1
          rw [hn] at hnd
          exact (List.nodup_cons.mp hnd).1 hc'
        · exact (hfresh h hc').1 hhseen
      rw [run_succ_of_some c s fuel it hit]
      rw [yieldedIds, List.flatMap_cons]
      refine List.Nodup.append ?_ (ih _ hinv') ?_
      · rcases it with e | id
        · rcases e with id | e <;> simp [itemIds]
        · simp [itemIds]
      · intro a ha ha'
        have : a = h := List.mem_singleton.mp (hsub ha)
        subst this
        exact not_yielded_of_seen_not_queued c fuel (step c s).2 a hinv'
          (hmono a hhseen) hhnot ha'

/-- Under the queue invariant, every yielded or `NotFound`-named id
passed the predicate. -/
lemma run_yielded_pred (c : Cfg) :
    ∀ (fuel : Nat) (s : State), QueueInv c.predicate s →
      ∀ x ∈ yieldedIds (run c fuel s), c.predicate x = true := by
  intro fuel
  induction fuel with
  | zero => simp [run, yieldedIds]
  | succ fuel ih =>
    intro s hinv x hx
    rcases hn : s.next with _ | ⟨h, t⟩
    · rw [run_of_empty c s hn] at hx
      simp [yieldedIds] at hx
    · obtain ⟨it, fresh, hit, hsub, hnext', hnodup, hfresh, hmono⟩ :=
        step_spec c s h t hn
      rw [run_succ_of_some c s fuel it hit] at hx
      rw [yieldedIds, List.flatMap_cons] at hx
      rcases List.mem_append.mp hx with hx' | hx'
      · have : x = h := List.mem_singleton.mp (hsub hx')
        subst this
        exact hinv.2.2 x (hn ▸ List.mem_cons_self _ _)
      · exact ih _ (step_queueInv c s hinv) x hx'

/-! ## Supporting lemmas: construction (`Ancestors::filtered`) -/

/-- Closed form of the tip loop: the queue gains the distinct fresh tips
passing the predicate, the seen set and the consulted log gain all
distinct fresh tips, each in first-occurrence order. -/
lemma enqueueTips_eq (pred : ObjectId → Bool) :
    ∀ (tips next seen consulted : List ObjectId),
      enqueueTips pred tips next seen consulted =
        (next ++ (dedupAux tips seen).filter pred,
         seen ++ dedupAux tips seen,
         consulted ++ dedupAux tips seen) := by
  intro tips
  induction tips with
  | nil =>
    intro next seen consulted
    simp [enqueueTips, dedupAux]
  | cons tip rest ih =>
    intro next seen consulted
    by_cases hmem : tip ∈ seen
    · have heq : enqueueTips pred (tip :: rest) next seen consulted =
          enqueueTips pred rest next seen consulted := by
        simp [enqueueTips, seenInsert, hmem]
      rw [heq, ih, dedupAux, if_pos hmem]
    · by_cases hpred : pred tip = true
      · have heq : enqueueTips pred (tip :: rest) next seen consulted =
            enqueueTips pred rest (next ++ [tip]) (seen ++ [tip])
              (consulted ++ [tip]) := by
          simp [enqueueTips, seenInsert, hmem, hpred]
        rw [heq, ih, dedupAux, if_neg hmem]
        simp [List.filter_cons, hpred, List.append_assoc]
      · have heq : enqueueTips pred (tip :: rest) next seen consulted =
            enqueueTips pred rest next (seen ++ [tip]) (consulted ++ [tip]) := by
          simp [enqueueTips, seenInsert, hmem, hpred]
        rw [heq, ih, dedupAux, if_neg hmem]
        simp [List.filter_cons, hpred, List.append_assoc]

/-- Membership in the first-occurrence deduplication. -/
lemma dedupAux_mem :
    ∀ (tips seen : List ObjectId) (x : ObjectId),
      x ∈ dedupAux tips seen ↔ x ∈ tips ∧ x ∉ seen := by
  intro tips
  induction tips with
  | nil => simp [dedupAux]
  | cons tip rest ih =>
    intro seen x
    by_cases hmem : tip ∈ seen
    · rw [dedupAux, if_pos hmem, ih]
      constructor
      · rintro ⟨hx, hns⟩
        exact ⟨List.mem_cons_of_mem _ hx, hns⟩
      · rintro ⟨hx, hns⟩
        rcases List.mem_cons.mp hx with rfl | hx'
        · exact absurd hmem hns
        · exact ⟨hx', hns⟩
    · rw [dedupAux, if_neg hmem]
      constructor
      · intro hx
        rcases List.mem_cons.mp hx with rfl | hx'
        · exact ⟨List.mem_cons_self _ _, hmem⟩
        · obtain ⟨h1, h2⟩ := (ih (seen ++ [tip]) x).mp hx'
          exact ⟨List.mem_cons_of_mem _ h1, fun hc => h2 (by simp [hc])⟩
      · rintro ⟨hx, hns⟩
        rcases List.mem_cons.mp hx with rfl | hx'
        · exact List.mem_cons_self _ _
        · by_cases hxt : x = tip
          · exact hxt ▸ List.mem_cons_self _ _
          · exact List.mem_cons_of_mem _
              ((ih (seen ++ [tip]) x).mpr ⟨hx', by simp [hns, hxt]⟩)

/-- The first-occurrence deduplication is duplicate-free. -/
lemma dedupAux_nodup :
    ∀ (tips seen : List ObjectId), (dedupAux tips seen).Nodup := by
  intro tips
  induction tips with
  | nil => simp [dedupAux]
  | cons tip rest ih =>
    intro seen
    by_cases hmem : tip ∈ seen
    · rw [dedupAux, if_pos hmem]
      exact ih seen
    · rw [dedupAux, if_neg hmem]
      refine List.Nodup.cons (fun hc => ?_) (ih (seen ++ [tip]))
      exact ((dedupAux_mem rest (seen ++ [tip]) tip).mp hc).2 (by simp)

/-- Closed form of `Ancestors::filtered`: the prior state is cleared, the
seen set becomes the distinct tips, the queue the distinct tips passing
the predicate, and the predicate is consulted on the distinct tips. -/
lemma filtered_eq (pred : ObjectId → Bool) (tips : List ObjectId) (s : State) :
    Ancestors.filtered pred tips s =
      ({ next := (dedupKeepFirst tips).filter pred, buf := [],
         seen := dedupKeepFirst tips }, dedupKeepFirst tips) := by
  unfold Ancestors.filtered State.clear dedupKeepFirst
  simp only []
  rw [enqueueTips_eq]
  simp

/-- The queue invariant holds right after construction. -/
lemma filtered_queueInv (pred : ObjectId → Bool) (tips : List ObjectId)
    (s0 : State) : QueueInv pred (Ancestors.filtered pred tips s0).1 := by
  rw [filtered_eq]
  refine ⟨List.Nodup.filter _ (dedupAux_nodup tips []), ?_, ?_⟩
  · intro id hid
    exact List.mem_of_mem_filter hid
  · intro id hid
    exact (List.mem_filter.mp hid).2

/-- **C10.** Construction always clears the supplied state (the result
does not depend on it, and the scratch buffer is empty); afterwards the
seen set holds exactly the distinct tips, the pending queue holds the
distinct predicate-passing tips in input order with duplicates removed,
and the predicate was consulted once per distinct tip. -/
theorem c10_filtered_clears_and_dedups (pred : ObjectId → Bool)
    (tips : List ObjectId) (s s' : State) :
    Ancestors.filtered pred tips s = Ancestors.filtered pred tips s' ∧
    (Ancestors.filtered pred tips s).1.buf = [] ∧
    (∀ id, id ∈ (Ancestors.filtered pred tips s).1.seen ↔ id ∈ tips) ∧
    (Ancestors.filtered pred tips s).1.next =
      (dedupKeepFirst tips).filter pred ∧
    (Ancestors.filtered pred tips s).2 = dedupKeepFirst tips ∧
    (Ancestors.filtered pred tips s).2.Nodup := by
  rw [filtered_eq pred tips s, filtered_eq pred tips s']
  refine ⟨rfl, rfl, ?_, rfl, rfl, dedupAux_nodup tips []⟩
  intro id
  show id ∈ dedupKeepFirst tips ↔ id ∈ tips
  rw [dedupKeepFirst, dedupAux_mem]
  simp

/-- **C5.** For every constructed traversal (any tips, predicate, parent
mode and sorting mode) the output mentions each object id at most once;
moreover any `next` call yields an item exactly when the queue is
non-empty, and that item mentions only the id being dequeued (the queue
head), never an id that was merely seen or enqueued. -/
theorem c5_each_id_yielded_once_at_dequeue (find : ObjectId → Option CommitData)
    (pred : ObjectId → Bool) (mode : Parents) (sorting : Sorting)
    (tips : List ObjectId) (s0 : State) (fuel : Nat) :
    (yieldedIds (run ⟨find, pred, mode, sorting⟩ fuel
        (Ancestors.filtered pred tips s0).1)).Nodup ∧
    (∀ s : State,
      ((step ⟨find, pred, mode, sorting⟩ s).1.elim [] itemIds) ⊆ s.next.take 1) ∧
    (∀ s : State,
      (step ⟨find, pred, mode, sorting⟩ s).1.isSome = !s.next.isEmpty) := by
  refine ⟨run_yielded_nodup _ fuel _ (filtered_queueInv pred tips s0), ?_, ?_⟩
  · intro s
    rcases hn : s.next with _ | ⟨h, t⟩
    · rw [step_empty _ s hn]
      simp
    · obtain ⟨it, fresh, hit, hsub, _⟩ := step_spec _ s h t hn
      rw [hit]
      simpa using hsub
  · intro s
    rcases hn : s.next with _ | ⟨h, t⟩
    · rw [step_empty _ s hn]
      simp
    · obtain ⟨it, fresh, hit, _⟩ := step_spec _ s h t hn
      rw [hit]
      simp

/-- **C6.** A node X rejected by the predicate is still marked seen the
moment it is reached: a rejected tip enters the seen set but not the
queue, a rejected parent processed by the graph-order loop enters the
seen set while the queue is untouched, and across the whole run X is
never yielded, never named by an error, and never pending — so a second
encounter cannot enqueue or expand it. -/
theorem c6_rejected_node_marked_seen_not_expanded
    (find : ObjectId → Option CommitData) (pred : ObjectId → Bool)
    (mode : Parents) (tips : List ObjectId) (s0 : State) (X : ObjectId)
    (fuel : Nat) (hX : pred X = false) :
    (X ∈ tips → X ∈ (Ancestors.filtered pred tips s0).1.seen) ∧
    X ∉ (Ancestors.filtered pred tips s0).1.next ∧
    X ∉ yieldedIds (run ⟨find, pred, mode, .graphOrder⟩ fuel
        (Ancestors.filtered pred tips s0).1) ∧
    X ∉ (runState ⟨find, pred, mode, .graphOrder⟩ fuel
        (Ancestors.filtered pred tips s0).1).next ∧
    (∀ next seen : List ObjectId, X ∉ seen →
      graphLoop pred mode [.ok (.parent X)] next seen =
        (none, next, seen ++ [X])) := by
  have hinv := filtered_queueInv pred tips s0
  refine ⟨?_, ?_, ?_, ?_, ?_⟩
  · intro hXtips
    rw [filtered_eq]
    show X ∈ dedupKeepFirst tips
    rw [dedupKeepFirst, dedupAux_mem]
    simp [hXtips]
  · rw [filtered_eq]
    intro hc
    have := (List.mem_filter.mp hc).2
    rw [hX] at this
    exact Bool.false_ne_true this
  · intro hc
    have := run_yielded_pred _ fuel _ hinv X hc
    simp only [hX] at this
    exact Bool.false_ne_true this
  · intro hc
    have hinv2 := runState_queueInv ⟨find, pred, mode, .graphOrder⟩ fuel _ hinv
    have := hinv2.2.2 X hc
    simp only [hX] at this
    exact Bool.false_ne_true this
  · intro next seen hXs
    cases mode <;> simp [graphLoop, seenInsert, hXs, hX]

/-- Witness for C6: the predicate `rejPred` rejects the tip 3, which is
marked seen, never queued and never yielded. -/
theorem c6_rejected_node_marked_seen_not_expanded_witness :
    rejPred 3 = false ∧
    ((3 ∈ [3] → 3 ∈ (Ancestors.filtered rejPred [3] ⟨[], [], []⟩).1.seen) ∧
      3 ∉ (Ancestors.filtered rejPred [3] ⟨[], [], []⟩).1.next ∧
      3 ∉ yieldedIds (run ⟨exFindAbsent, rejPred, .all, .graphOrder⟩ 2
          (Ancestors.filtered rejPred [3] ⟨[], [], []⟩).1) ∧
      3 ∉ (runState ⟨exFindAbsent, rejPred, .all, .graphOrder⟩ 2
          (Ancestors.filtered rejPred [3] ⟨[], [], []⟩).1).next ∧
      (∀ next seen : List ObjectId, 3 ∉ seen →
        graphLoop rejPred .all [.ok (.parent 3)] next seen =
          (none, next, seen ++ [3]))) :=
  ⟨by decide, c6_rejected_node_marked_seen_not_expanded exFindAbsent rejPred
    .all [3] ⟨[], [], []⟩ 3 2 (by decide)⟩

/-- **C2, counterexample.** In `ByCommitterDate` mode the parent 2 of the
dequeued commit 1 is consulted (its lookup returns `None`), yet the
traversal's full output is `[Ok 1]`: no `NotFound{2}` is ever yielded, so
an absent reachable object *is* silently skipped in this mode. -/
theorem c2_counterexample :
    exFindAbsent 2 = none ∧
    exFindAbsent 1 = some ⟨[.ok .tree, .ok (.parent 2)], some 10⟩ ∧
    run exCfgDate 5 exStateTip1 = [.ok 1] ∧
    (.error (.notFound 2) : Item) ∉ run exCfgDate 5 exStateTip1 := by
  refine ⟨rfl, rfl, by decide, by decide⟩

/-- **C2 (amended).** In either sorting mode, when the find callback
returns `None` for a *dequeued* id, `next` yields `Err(NotFound)` naming
exactly that id and removes it from the queue; an absent id consulted
only as a parent during date lookup (ByCommitterDate) produces no such
error (see the counterexample). -/
theorem c2_dequeued_absent_is_notfound (c : Cfg) (s : State) (h : ObjectId)
    (t : List ObjectId) (hnext : s.next = h :: t) (hfind : c.find h = none) :
    (step c s).1 = some (.error (.notFound h)) ∧
    (step c s).2 = { s with next := t } := by
  cases hs : c.sorting with
  | graphOrder =>
    have he : step c s = graphSortNext c s := by rw [step, hs]
    rw [he]
    constructor <;> simp [graphSortNext, hnext, hfind]
  | byCommitterDate =>
    have he : step c s = nextByCommitDate c s := by rw [step, hs]
    rw [he]
    constructor <;> simp [nextByCommitDate, hnext, hfind]

/-- Witness for the amended C2: dequeuing the absent id 2 yields
`NotFound{2}` in both sorting modes. -/
theorem c2_dequeued_absent_is_notfound_witness :
    (exStateTip2.next = 2 :: [] ∧ exCfgDate.find 2 = none ∧
      (step exCfgDate exStateTip2).1 = some (.error (.notFound 2)) ∧
      (step exCfgDate exStateTip2).2 = { exStateTip2 with next := [] }) ∧
    (exCfgGraph.find 2 = none ∧
      (step exCfgGraph exStateTip2).1 = some (.error (.notFound 2)) ∧
      (step exCfgGraph exStateTip2).2 = { exStateTip2 with next := [] }) :=
  ⟨⟨rfl, rfl, (c2_dequeued_absent_is_notfound exCfgDate exStateTip2 2 [] rfl rfl).1,
      (c2_dequeued_absent_is_notfound exCfgDate exStateTip2 2 [] rfl rfl).2⟩,
    ⟨rfl, (c2_dequeued_absent_is_notfound exCfgGraph exStateTip2 2 [] rfl rfl).1,
      (c2_dequeued_absent_is_notfound exCfgGraph exStateTip2 2 [] rfl rfl).2⟩⟩

/-! ## Supporting lemmas: the committer-date batch (C3, C7) -/

/-- Everything in a successfully collected batch beyond the initial
accumulator carries the committer date its id resolves to. -/
lemma dateLoop_mem (c : Cfg) :
    ∀ (tokens : List (Except DecodeErr Token))
      (batch0 batch : List (ObjectId × Int)),
      dateLoop c tokens batch0 = .ok batch →
      ∀ p ∈ batch, p ∈ batch0 ∨ dateOf c p.1 = some p.2 := by
  intro tokens
  induction tokens with
  | nil =>
    intro b0 b h p hp
    simp only [dateLoop, Except.ok.injEq] at h
    exact Or.inl (h ▸ hp)
  | cons tok rest ih =>
    intro b0 b h p hp
    match tok with
    | .error e => simp [dateLoop] at h
    | .ok .tree =>
      simp only [dateLoop, Except.ok.injEq] at h
      exact Or.inl (h ▸ hp)
    | .ok .other =>
      simp only [dateLoop, Except.ok.injEq] at h
      exact Or.inl (h ▸ hp)
    | .ok (.parent id) =>
      cases hdate : dateOf c id with
      | some d =>
        cases hm : c.mode with
        | first =>
          rw [dateLoop, hdate] at h
          simp only [hm, Except.ok.injEq] at h
          subst h
          rcases List.mem_append.mp hp with hp' | hp'
          · exact Or.inl hp'
          · rcases List.mem_singleton.mp hp' with rfl
            exact Or.inr hdate
        | all =>
          rw [dateLoop, hdate] at h
          simp only [hm] at h
          rcases ih (b0 ++ [(id, d)]) b h p hp with hp' | hp'
          · rcases List.mem_append.mp hp' with hp'' | hp''
            · exact Or.inl hp''
            · rcases List.mem_singleton.mp hp'' with rfl
              exact Or.inr hdate
          · exact Or.inr hp'
      | none =>
        cases hm : c.mode with
        | first =>
          rw [dateLoop, hdate] at h
          simp only [hm, Except.ok.injEq] at h
          exact Or.inl (h ▸ hp)
        | all =>
          rw [dateLoop, hdate] at h
          simp only [hm] at h
          exact ih b0 b h p hp

/-- Stable descending insertion permutes. -/
lemma insertByDateDesc_perm (p : ObjectId × Int) (l : List (ObjectId × Int)) :
    List.Perm (insertByDateDesc p l) (p :: l) := by
  induction l with
  | nil => exact List.Perm.refl _
  | cons q qs ih =>
    rw [insertByDateDesc]
    by_cases hlt : p.2 < q.2
    · rw [if_pos hlt]
      exact List.Perm.trans (List.Perm.cons q ih) (List.Perm.swap p q qs)
    · rw [if_neg hlt]

/-- The descending sort permutes its input. -/
lemma sortByDateDesc_perm (l : List (ObjectId × Int)) :
    List.Perm (sortByDateDesc l) l := by
  induction l with
  | nil => exact List.Perm.refl _
  | cons p ps ih =>
    rw [sortByDateDesc]
    exact List.Perm.trans (insertByDateDesc_perm p _) (List.Perm.cons p ih)

/-- Stable descending insertion preserves descending order. -/
lemma insertByDateDesc_pairwise (p : ObjectId × Int)
    (l : List (ObjectId × Int)) (hl : l.Pairwise (fun a b => b.2 ≤ a.2)) :
    (insertByDateDesc p l).Pairwise (fun a b => b.2 ≤ a.2) := by
  induction l with
  | nil => simp [insertByDateDesc]
  | cons q qs ih =>
    rw [insertByDateDesc]
    rcases List.pairwise_cons.mp hl with ⟨hq, hqs⟩
    by_cases hlt : p.2 < q.2
    · rw [if_pos hlt]
      refine List.pairwise_cons.mpr ⟨?_, ih hqs⟩
      intro b hb
      have hb' := (insertByDateDesc_perm p qs).mem_iff.mp hb
      rcases List.mem_cons.mp hb' with rfl | hbqs
      · exact le_of_lt hlt
      · exact hq b hbqs
    · rw [if_neg hlt]
      refine List.pairwise_cons.mpr ⟨?_, hl⟩
      intro b hb
      rcases List.mem_cons.mp hb with rfl | hbqs
      · exact not_lt.mp hlt
      · exact le_trans (hq b hbqs) (not_lt.mp hlt)

/-- The batch sort is descending by date. -/
lemma sortByDateDesc_pairwise (l : List (ObjectId × Int)) :
    (sortByDateDesc l).Pairwise (fun a b => b.2 ≤ a.2) := by
  induction l with
  | nil => simp [sortByDateDesc]
  | cons p ps ih =>
    rw [sortByDateDesc]
    exact insertByDateDesc_pairwise p _ ih

/-- Every id pending after a `next_by_commit_date` call was either
already pending or resolves to a committer date. -/
lemma nextByCommitDate_next_mem (c : Cfg) (s : State) :
    ∀ x ∈ (nextByCommitDate c s).2.next,
      x ∈ s.next ∨ ∃ d, dateOf c x = some d := by
  rcases hn : s.next with _ | ⟨h, t⟩
  · intro x hx
    simp [nextByCommitDate, hn] at hx
  · intro x hx
    cases hfind : c.find h with
    | none =>
      simp [nextByCommitDate, hn, hfind] at hx
      exact Or.inl (List.mem_cons_of_mem _ hx)
    | some commit =>
      rcases htok : commit.tokens with _ | ⟨tk, tl⟩
      · simp [nextByCommitDate, hn, hfind, htok, dateLoop, sortByDateDesc,
          enqueueParents] at hx
        exact Or.inl (List.mem_cons_of_mem _ hx)
      · cases tk with
        | error e =>
          simp [nextByCommitDate, hn, hfind, htok] at hx
          exact Or.inl (List.mem_cons_of_mem _ hx)
        | ok tok =>
          cases hdl : dateLoop c tl [] with
          | error e =>
            have hxe : x ∈ t := by
              cases tok <;>
                simp [nextByCommitDate, hn, hfind, htok, hdl] at hx <;>
                exact hx
            exact Or.inl (List.mem_cons_of_mem _ hxe)
          | ok batch =>
            have hred : (nextByCommitDate c s).2.next =
                (enqueueParents c.predicate
                  ((sortByDateDesc batch).map Prod.fst) t s.seen).1 := by
              cases tok <;> simp [nextByCommitDate, hn, hfind, htok, hdl]
            rw [hred] at hx
            obtain ⟨fresh, h1, h2, h3, h4⟩ := enqueueParents_spec c.predicate
              ((sortByDateDesc batch).map Prod.fst) t s.seen
            rw [h1] at hx
            rcases List.mem_append.mp hx with hx' | hx'
            · exact Or.inl (List.mem_cons_of_mem _ hx')
            · have hxid := (h3 x hx').2.2.1
              obtain ⟨q, hq, hq1⟩ := List.mem_map.mp hxid
              have hqb := (sortByDateDesc_perm batch).mem_iff.mp hq
              rcases dateLoop_mem c tl [] batch hdl q hqb with h0 | hdq
              · simp at h0
              · exact Or.inr ⟨q.2, hq1 ▸ hdq⟩

/-- A dateless id that is not pending never becomes pending and is never
mentioned by the output, across any number of date-ordered steps. -/
lemma date_run_not_queued (c : Cfg) (p : ObjectId)
    (hsort : c.sorting = .byCommitterDate) (hp : dateOf c p = none) :
    ∀ (fuel : Nat) (s : State), p ∉ s.next →
      p ∉ (runState c fuel s).next ∧ p ∉ yieldedIds (run c fuel s) := by
  intro fuel
  induction fuel with
  | zero =>
    intro s h
    exact ⟨h, by simp [run, yieldedIds]⟩
  | succ fuel ih =>
    intro s hps
    have hstep : step c s = nextByCommitDate c s := by rw [step, hsort]
    have hnotnext : p ∉ (step c s).2.next := by
      rw [hstep]
      intro hc
      rcases nextByCommitDate_next_mem c s p hc with h | ⟨d, hd⟩
      · exact hps h
      · rw [hp] at hd
        exact Option.noConfusion hd
    constructor
    · rw [runState]
      exact (ih _ hnotnext).1
    · rcases hn : s.next with _ | ⟨h, t⟩
      · rw [run_of_empty c s hn]
        simp [yieldedIds]
      · obtain ⟨it, fresh, hit, hsub, _⟩ := step_spec c s h t hn
        rw [run_succ_of_some c s fuel it hit]
        rw [yieldedIds, List.flatMap_cons]
        intro hc
        rcases List.mem_append.mp hc with hc' | hc'
        · have : p = h := List.mem_singleton.mp (hsub hc')
          exact hps (this ▸ hn ▸ List.mem_cons_self _ _)
        · exact (ih _ hnotnext).2 hc'

/-- **C3.** In `ByCommitterDate` mode a parent that cannot furnish a
committer date (including one whose lookup returns `None`) never enters
the collected batch, and — as long as it is not already pending — it is
never enqueued and never mentioned by the output at any point of the
traversal: that ancestor line is silently pruned. -/
theorem c3_dateless_parent_silently_pruned (c : Cfg) (p : ObjectId)
    (s : State) (fuel : Nat) (hsort : c.sorting = .byCommitterDate)
    (hp : dateOf c p = none) (hps : p ∉ s.next) :
    (∀ tokens batch, dateLoop c tokens [] = .ok batch →
      p ∉ batch.map Prod.fst) ∧
    p ∉ (runState c fuel s).next ∧
    p ∉ yieldedIds (run c fuel s) := by
  refine ⟨?_, (date_run_not_queued c p hsort hp fuel s hps).1,
    (date_run_not_queued c p hsort hp fuel s hps).2⟩
  intro tokens batch hdl hc
  obtain ⟨q, hq, hq1⟩ := List.mem_map.mp hc
  rcases dateLoop_mem c tokens [] batch hdl q hq with h0 | hdate
  · simp at h0
  · rw [hq1] at hdate
    rw [hp] at hdate
    exact Option.noConfusion hdate

/-- Witness for C3: in the date-ordered traversal from tip 1, the absent
(dateless) parent 2 never enters a batch, the queue, or the output. -/
theorem c3_dateless_parent_silently_pruned_witness :
    (exCfgDate.sorting = .byCommitterDate ∧ dateOf exCfgDate 2 = none ∧
      2 ∉ exStateTip1.next) ∧
    (∀ tokens batch, dateLoop exCfgDate tokens [] = .ok batch →
      2 ∉ batch.map Prod.fst) ∧
    2 ∉ (runState exCfgDate 5 exStateTip1).next ∧
    2 ∉ yieldedIds (run exCfgDate 5 exStateTip1) :=
  ⟨⟨rfl, rfl, by decide⟩,
    c3_dateless_parent_silently_pruned exCfgDate 2 exStateTip1 5 rfl rfl
      (by decide)⟩

/-- **C7.** After collecting the parents of a dequeued commit in
`ByCommitterDate` mode, the batch is stably sorted descending by
committer date and enqueued in that order: for a merge commit M with
parents P1 (date t1) and P2 (date t2 > t1), P2 is enqueued before P1
(and, generally, the sorted batch is descending and a permutation of the
collected batch). -/
theorem c7_parents_enqueued_by_date_desc (c : Cfg) (s : State)
    (M P1 P2 : ObjectId) (dM : Option Int) (t1 t2 : Int)
    (tail : List ObjectId)
    (hsort : c.sorting = .byCommitterDate) (hmode : c.mode = .all)
    (hnext : s.next = M :: tail)
    (hM : c.find M = some ⟨[.ok .tree, .ok (.parent P1), .ok (.parent P2),
      .ok .other], dM⟩)
    (h1 : dateOf c P1 = some t1) (h2 : dateOf c P2 = some t2)
    (h12 : t1 < t2) (hP1 : P1 ∉ s.seen) (hP2 : P2 ∉ s.seen) (hne : P1 ≠ P2)
    (hp1 : c.predicate P1 = true) (hp2 : c.predicate P2 = true) :
    (step c s).1 = some (.ok M) ∧
    (step c s).2.next = tail ++ [P2, P1] ∧
    (step c s).2.seen = s.seen ++ [P2, P1] ∧
    (∀ l : List (ObjectId × Int),
      (sortByDateDesc l).Pairwise (fun a b => b.2 ≤ a.2) ∧
      List.Perm (sortByDateDesc l) l) := by
  have hstep : step c s = nextByCommitDate c s := by rw [step, hsort]
  have hbatch : dateLoop c
      [.ok (.parent P1), .ok (.parent P2), .ok .other] [] =
      .ok [(P1, t1), (P2, t2)] := by
    simp [dateLoop, h1, h2, hmode]
  have hsorted : sortByDateDesc [(P1, t1), (P2, t2)] = [(P2, t2), (P1, t1)] := by
    rw [sortByDateDesc, sortByDateDesc, sortByDateDesc, insertByDateDesc,
      insertByDateDesc]
    rw [if_pos h12]
    rw [insertByDateDesc]
  have henq : enqueueParents c.predicate [P2, P1] tail s.seen =
      (tail ++ [P2, P1], s.seen ++ [P2, P1]) := by
    simp [enqueueParents, seenInsert, hP2, hp2, hne, hP1, hp1,
      List.append_assoc]
  refine ⟨?_, ?_, ?_,
    fun l => ⟨sortByDateDesc_pairwise l, sortByDateDesc_perm l⟩⟩ <;>
    rw [hstep] <;>
    simp [nextByCommitDate, hnext, hM, hbatch, hsorted, henq]

/-- Witness for C7: in the merge world, dequeuing commit 1 enqueues
parent 3 (date 9) before parent 2 (date 5). -/
theorem c7_parents_enqueued_by_date_desc_witness :
    (exCfgMerge.sorting = .byCommitterDate ∧ exCfgMerge.mode = .all ∧
      exStateMerge.next = 1 :: [] ∧
      dateOf exCfgMerge 2 = some 5 ∧ dateOf exCfgMerge 3 = some 9 ∧
      (5 : Int) < 9 ∧ 2 ∉ exStateMerge.seen ∧ 3 ∉ exStateMerge.seen) ∧
    (step exCfgMerge exStateMerge).1 = some (.ok 1) ∧
    (step exCfgMerge exStateMerge).2.next = [] ++ [3, 2] ∧
    (step exCfgMerge exStateMerge).2.seen = exStateMerge.seen ++ [3, 2] := by
  have happ := c7_parents_enqueued_by_date_desc exCfgMerge exStateMerge
    1 2 3 (some 99) 5 9 [] rfl rfl (by decide) rfl rfl rfl (by decide)
    (by decide) (by decide) (by decide) rfl rfl
  exact ⟨⟨rfl, rfl, by decide, rfl, rfl, by decide, by decide, by decide⟩,
    happ.1, happ.2.1, happ.2.2.1⟩

end Gitoxide

